import Mathlib

/-!
Verification of the indexing / retrieval / evaluation core of the
IR-GlobalWarming information-retrieval system.

The Python source is shallowly embedded:

* Python `dict`s become association lists with unique keys; `dict.get`
  becomes `dictGet?`, `d[k] = v` becomes `dictSet` (update the first
  matching key, append when absent — the insertion-order semantics of
  Python dicts), and `defaultdict(list)`'s `d[k].append(p)` becomes
  `appendPosting`.
* Python floats become `ℝ` where genuinely irrational quantities occur
  (`math.log10`, `math.sqrt`) and `ℚ` where the code only performs
  field arithmetic on rational inputs (`ndcg_at_k`, `average_precision`,
  `prune_terms`' ratio test).
* The mutable `idf_cache` of `TFIDFCalculator` is threaded explicitly:
  `calculate_idf` takes the cache and returns the value together with
  the updated cache, exactly as the Python method reads and writes
  `self.idf_cache`.
* `InvertedIndex.documents` (the opaque payload dictionary) is not
  modelled: no claim mentions it and no modelled operation reads it.
* Functions returning Python `set`s (`boolean_search` before its final
  `list(...)` conversion, whose order is unspecified) return `Finset ℤ`.
-/

namespace IRGW

/-- A posting: `(doc_id, raw term frequency in that document)`;
from `indexer.py`, `self.index  # term -> [(doc_id, frequency), ...]`. -/
abbrev Posting := ℤ × ℕ

/-- Lookup in an association list modelling Python `dict.get(k)`:
the value at the first matching key, `none` when absent. -/
def dictGet? {α β : Type} [DecidableEq α] : List (α × β) → α → Option β
  | [], _ => none
  | p :: rest, k => if p.1 = k then some p.2 else dictGet? rest k

/-- Python `d[k] = v` on a dict: overwrite the first matching key,
append at the end (insertion order) when the key is absent. -/
def dictSet {α β : Type} [DecidableEq α] : List (α × β) → α → β → List (α × β)
  | [], k, v => [(k, v)]
  | p :: rest, k, v => if p.1 = k then (k, v) :: rest else p :: dictSet rest k v

/-- Python `self.index[term].append(p)` on a `defaultdict(list)`:
append `p` to the postings of the first entry for `t`, or create a new
entry `(t, [p])` at the end when `t` is absent. -/
def appendPosting : List (String × List Posting) → String → Posting →
    List (String × List Posting)
  | [], t, p => [(t, [p])]
  | q :: rest, t, p =>
    if q.1 = t then (q.1, q.2 ++ [p]) :: rest else q :: appendPosting rest t p

/-- The distinct elements of a token list in first-occurrence order:
the key order of Python's `term_freq` dict built by
`for token in tokens: term_freq[token] += 1`. -/
def distinctFirst (l : List String) : List String :=
  l.foldl (fun acc t => if t ∈ acc then acc else acc ++ [t]) []

/-- `InvertedIndex` state (`indexer.py`): the term → postings map, the
doc_id → token-count map and the total document counter. -/
structure InvertedIndex where
  index : List (String × List Posting)
  doc_lengths : List (ℤ × ℕ)
  total_docs : ℕ

/-- A freshly constructed `InvertedIndex()`. -/
def InvertedIndex.empty : InvertedIndex := ⟨[], [], 0⟩

/-- `InvertedIndex.add_document`: aggregate `tokens` into per-term
frequencies, append one posting per distinct term, record the document
length and increment the document counter. -/
def add_document (s : InvertedIndex) (doc_id : ℤ) (tokens : List String) :
    InvertedIndex where
  index := (distinctFirst tokens).foldl
    (fun acc t => appendPosting acc t (doc_id, tokens.count t)) s.index
  doc_lengths := dictSet s.doc_lengths doc_id tokens.length
  total_docs := s.total_docs + 1

/-- `InvertedIndex.get_postings`: `self.index.get(term, [])`. -/
def get_postings (s : InvertedIndex) (t : String) : List Posting :=
  (dictGet? s.index t).getD []

/-- `InvertedIndex.get_document_frequency`: `len(self.index.get(term, []))`. -/
def get_document_frequency (s : InvertedIndex) (t : String) : ℕ :=
  (get_postings s t).length

/-- The removal test of `InvertedIndex.prune_terms` applied to one
document frequency: `df < min_df`, or `total_docs > 0` and
`df / total_docs > max_df_ratio` (float division modelled on `ℚ`). -/
def pruneFlag (total min_df : ℕ) (max_df_ratio : ℚ) (df : ℕ) : Bool :=
  decide (df < min_df) ||
    (decide (0 < total) && decide (max_df_ratio < (df : ℚ) / (total : ℚ)))

/-- `InvertedIndex.prune_terms`: collect the terms whose postings match
the removal test, delete them from the index, and return how many were
deleted together with the pruned index.  Deleting the collected keys
from a Python dict leaves exactly the non-matching entries in order,
i.e. a `filter`. -/
def prune_terms (s : InvertedIndex) (min_df : ℕ) (max_df_ratio : ℚ) :
    ℕ × InvertedIndex :=
  let terms_to_remove :=
    s.index.filter fun p => pruneFlag s.total_docs min_df max_df_ratio p.2.length
  (terms_to_remove.length,
   { s with index :=
      s.index.filter fun p => ! pruneFlag s.total_docs min_df max_df_ratio p.2.length })

/-- The IDF cache of `TFIDFCalculator`: `self.idf_cache`, term → value. -/
abbrev IdfCache := List (String × ℝ)

/-- `TFIDFCalculator.calculate_tf`: `'normalized'` → `tf / max(dl, 1)`;
`'log'` → `1 + log10 tf` when `tf > 0` else `0`; anything else → raw. -/
noncomputable def calculate_tf (term_freq : ℕ) (doc_length : ℕ)
    (normalization : String) : ℝ :=
  if normalization = "normalized" then (term_freq : ℝ) / (max doc_length 1 : ℕ)
  else if normalization = "log" then
    (if 0 < term_freq then 1 + Real.logb 10 (term_freq : ℝ) else 0)
  else (term_freq : ℝ)

/-- The cache-miss computation inside `TFIDFCalculator.calculate_idf`:
`0` when the document frequency is `0`, else `log10(total_docs / df)`. -/
noncomputable def uncached_idf (s : InvertedIndex) (t : String) : ℝ :=
  if get_document_frequency s t = 0 then 0
  else Real.logb 10 ((s.total_docs : ℝ) / (get_document_frequency s t : ℝ))

/-- `TFIDFCalculator.calculate_idf` with the mutable `self.idf_cache`
threaded explicitly: return the cached value unchanged on a hit, and on
a miss compute `uncached_idf` and store it. -/
noncomputable def calculate_idf (s : InvertedIndex) (cache : IdfCache)
    (t : String) : ℝ × IdfCache :=
  match dictGet? cache t with
  | some v => (v, cache)
  | none => (uncached_idf s t, cache ++ [(t, uncached_idf s t)])

/-- The first-match scan of `TFIDFCalculator.calculate_tfidf`:
`for d_id, freq in postings: if d_id == doc_id: term_freq = freq; break`,
with `term_freq = 0` when no posting matches. -/
def postingFreq (ps : List Posting) (doc_id : ℤ) : ℕ :=
  ((ps.find? fun q => decide (q.1 = doc_id)).map Prod.snd).getD 0

/-- `TFIDFCalculator.calculate_tfidf`: 0 (cache untouched) when the term
does not occur in the document, else `tf * idf` with the document length
defaulting to 1. -/
noncomputable def calculate_tfidf (s : InvertedIndex) (cache : IdfCache)
    (t : String) (doc_id : ℤ) : ℝ × IdfCache :=
  let term_freq := postingFreq (get_postings s t) doc_id
  if term_freq = 0 then (0, cache)
  else
    let doc_length := (dictGet? s.doc_lengths doc_id).getD 1
    let tf := calculate_tf term_freq doc_length "normalized"
    let r := calculate_idf s cache t
    (tf * r.1, r.2)

/-- `TFIDFCalculator.calculate_document_vector` with an explicit term
list: for each term compute tf-idf and keep it only when `> 0`. -/
noncomputable def calculate_document_vector (s : InvertedIndex)
    (cache : IdfCache) (doc_id : ℤ) (terms : List String) :
    List (String × ℝ) × IdfCache :=
  terms.foldl
    (fun acc t =>
      let r := calculate_tfidf s acc.2 t doc_id
      (if 0 < r.1 then dictSet acc.1 t r.1 else acc.1, r.2))
    ([], cache)

/-- The `terms is None` default of `calculate_document_vector`: all
index terms holding a posting for `doc_id` (iterated in key order; the
Python code iterates the equivalent set). -/
def doc_terms (s : InvertedIndex) (doc_id : ℤ) : List String :=
  (s.index.filter fun p => p.2.any fun q => decide (q.1 = doc_id)).map Prod.fst

/-- `calculate_document_vector(doc_id)` with the default term list. -/
noncomputable def calculate_document_vector_all (s : InvertedIndex)
    (cache : IdfCache) (doc_id : ℤ) : List (String × ℝ) × IdfCache :=
  calculate_document_vector s cache doc_id (doc_terms s doc_id)

/-- `TFIDFCalculator.calculate_query_vector`: count multiplicities,
then for each distinct query term store `tf * idf` (no zero filter). -/
noncomputable def calculate_query_vector (s : InvertedIndex)
    (cache : IdfCache) (query_terms : List String) :
    List (String × ℝ) × IdfCache :=
  (distinctFirst query_terms).foldl
    (fun acc t =>
      let tf := calculate_tf (query_terms.count t) query_terms.length "normalized"
      let r := calculate_idf s acc.2 t
      (dictSet acc.1 t (tf * r.1), r.2))
    ([], cache)

/-- The key set of a sparse weight vector: `set(v.keys())`. -/
def vecKeys (v : List (String × ℝ)) : Finset String :=
  (v.map Prod.fst).toFinset

/-- `v[term]` on a weight vector (always called on present keys). -/
def getW (v : List (String × ℝ)) (t : String) : ℝ :=
  (dictGet? v t).getD 0

/-- `sum(weight ** 2 for weight in v.values())`. -/
noncomputable def sumSquares (v : List (String × ℝ)) : ℝ :=
  (v.map fun p => p.2 ^ 2).sum

open Classical in
/-- `SearchEngine.cosine_similarity`: `0` without common terms, else the
dot product over the common terms divided by the product of the two
Euclidean norms, `0` when either norm vanishes. -/
noncomputable def cosine_similarity (v1 v2 : List (String × ℝ)) : ℝ :=
  let common := vecKeys v1 ∩ vecKeys v2
  if common = ∅ then 0
  else
    let dot := ∑ t ∈ common, getW v1 t * getW v2 t
    let magnitude1 := Real.sqrt (sumSquares v1)
    let magnitude2 := Real.sqrt (sumSquares v2)
    if magnitude1 = 0 ∨ magnitude2 = 0 then 0
    else dot / (magnitude1 * magnitude2)

/-- The document-id set of one term's posting list:
`set(doc_id for doc_id, _ in postings)`. -/
def docIdsOf (s : InvertedIndex) (t : String) : Finset ℤ :=
  ((get_postings s t).map Prod.fst).toFinset

/-- `SearchEngine.boolean_search` up to the final (order-unspecified)
`list(...)` conversion: the empty set for an empty query, otherwise the
intersection (operator `"AND"`) or union (any other operator string,
the code's `else` branch) of the per-term document-id sets. -/
def boolean_search (s : InvertedIndex) (query_terms : List String)
    (operator : String) : Finset ℤ :=
  match query_terms with
  | [] => ∅
  | t :: ts =>
    if operator = "AND" then
      ts.foldl (fun acc u => acc ∩ docIdsOf s u) (docIdsOf s t)
    else
      (t :: ts).foldl (fun acc u => acc ∪ docIdsOf s u) ∅

/-- The candidate set of `SearchEngine.vector_space_search`: documents
holding a posting for at least one query term. -/
def candidateDocs (s : InvertedIndex) (query_terms : List String) : Finset ℤ :=
  query_terms.foldl (fun acc t => acc ∪ docIdsOf s t) ∅

open Classical in
/-- One insertion step of descending insertion sort on `(doc, score)`
pairs, modelling `scores.sort(key=lambda x: x[1], reverse=True)`. -/
noncomputable def insertByScore (p : ℤ × ℝ) : List (ℤ × ℝ) → List (ℤ × ℝ)
  | [] => [p]
  | q :: rest => if q.2 ≤ p.2 then p :: q :: rest else q :: insertByScore p rest

/-- Sort `(doc, score)` pairs by score descending. -/
noncomputable def sortByScore (l : List (ℤ × ℝ)) : List (ℤ × ℝ) :=
  l.foldr insertByScore []

/-- `SearchEngine.vector_space_search`: build the query vector (empty →
empty result), score every candidate document against it restricted to
the query terms, keep strictly positive similarities, sort descending,
truncate to `top_k`.  The candidate set (a Python set, iteration order
unspecified) is iterated in ascending id order; the idf cache is
threaded through exactly as the mutating Python code does. -/
noncomputable def vector_space_search (s : InvertedIndex) (cache : IdfCache)
    (query_terms : List String) (top_k : ℕ) : List (ℤ × ℝ) :=
  let qr := calculate_query_vector s cache query_terms
  if qr.1.isEmpty then []
  else
    let cands := (candidateDocs s query_terms).sort (· ≤ ·)
    let scored := cands.foldl
      (fun acc d =>
        let dr := calculate_document_vector s acc.2 d query_terms
        let sim := cosine_similarity qr.1 dr.1
        (if 0 < sim then acc.1 ++ [(d, sim)] else acc.1, dr.2))
      (([] : List (ℤ × ℝ)), qr.2)
    (sortByScore scored.1).take top_k

/-- The precision-at-hit accumulation loop of
`IREvaluator.average_precision`: walking positions `i, i+1, …` with
`hits` hits so far, emit `(hits+1)/position` at every relevant document. -/
def precisionWalk (relevant : Finset ℤ) : List ℤ → ℕ → ℕ → List ℚ
  | [], _, _ => []
  | d :: ds, i, hits =>
    if d ∈ relevant then
      ((hits + 1 : ℕ) : ℚ) / (i : ℚ) :: precisionWalk relevant ds (i + 1) (hits + 1)
    else precisionWalk relevant ds (i + 1) hits

/-- `IREvaluator.average_precision`: `0` for an empty relevant set or an
empty precision list, else the precision-at-hit sum divided by the size
of the relevant set. -/
def average_precision (retrieved_ranked : List ℤ) (relevant : Finset ℤ) : ℚ :=
  if relevant = ∅ then 0
  else
    let precisions := precisionWalk relevant retrieved_ranked 1 0
    if precisions = [] then 0 else precisions.sum / (relevant.card : ℚ)

/-- `relevance_scores.get(doc_id, 0)`. -/
def relevanceOf (relevance_scores : List (ℤ × ℚ)) (d : ℤ) : ℚ :=
  (dictGet? relevance_scores d).getD 0

/-- The position-discounted sum of `IREvaluator.ndcg_at_k`, starting at
position `i`: each relevance is divided by `1` at position 1 and by
`i * 0.693147` at positions `i > 1` (the code's literal discount). -/
def dcgSum : List ℚ → ℕ → ℚ
  | [], _ => 0
  | r :: rs, i =>
    r / (if i = 1 then 1 else (i : ℚ) * (693147 / 1000000)) + dcgSum rs (i + 1)

/-- One step of stable descending insertion sort on `(doc, relevance)`
pairs, modelling `sorted(items, key=lambda x: x[1], reverse=True)`. -/
def insertRel (p : ℤ × ℚ) : List (ℤ × ℚ) → List (ℤ × ℚ)
  | [] => [p]
  | q :: rest => if q.2 ≤ p.2 then p :: q :: rest else q :: insertRel p rest

/-- Stable sort of `(doc, relevance)` pairs by relevance descending. -/
def sortRelDesc (l : List (ℤ × ℚ)) : List (ℤ × ℚ) :=
  l.foldr insertRel []

/-- `IREvaluator.ndcg_at_k` as written in the code: DCG over the first
`k` ranked documents with the `i * 0.693147` discount, IDCG over the
relevance scores sorted descending, result `DCG / IDCG` or `0` when
IDCG is `0`. -/
def ndcg_at_k (retrieved_ranked : List ℤ) (relevance_scores : List (ℤ × ℚ))
    (k : ℕ) : ℚ :=
  let dcg := dcgSum ((retrieved_ranked.take k).map (relevanceOf relevance_scores)) 1
  let idcg := dcgSum (((sortRelDesc relevance_scores).take k).map Prod.snd) 1
  if idcg = 0 then 0 else dcg / idcg

/-- Modelled from the spec: the discounted sum with the true logarithmic
discount — `1` at position 1 and `log2(i + 1)` at positions `i > 1` —
which the spec requires in place of the code's linear `i * 0.693147`. -/
noncomputable def dcgSumSpec : List ℚ → ℕ → ℝ
  | [], _ => 0
  | r :: rs, i =>
    (r : ℝ) / (if i = 1 then 1 else Real.logb 2 ((i : ℝ) + 1)) + dcgSumSpec rs (i + 1)

open Classical in
/-- Modelled from the spec: `ndcg_at_k` with the spec's `log2(i + 1)`
discount, otherwise structured exactly like the code (DCG over the
first `k` ranked positions, IDCG over relevances sorted descending,
`DCG / IDCG`, `0` when IDCG is `0`). -/
noncomputable def ndcg_at_k_spec (retrieved_ranked : List ℤ)
    (relevance_scores : List (ℤ × ℚ)) (k : ℕ) : ℝ :=
  let dcg := dcgSumSpec ((retrieved_ranked.take k).map (relevanceOf relevance_scores)) 1
  let idcg := dcgSumSpec (((sortRelDesc relevance_scores).take k).map Prod.snd) 1
  if idcg = 0 then 0 else dcg / idcg

/-- An index mutation, as exposed by `InvertedIndex`: adding a document
or pruning terms.  Any reachable index state is a fold of these over the
fresh index. -/
inductive Op
  | add (doc_id : ℤ) (tokens : List String)
  | prune (min_df : ℕ) (max_df_ratio : ℚ)

/-- Apply one index mutation. -/
def applyOp (s : InvertedIndex) : Op → InvertedIndex
  | .add d toks => add_document s d toks
  | .prune m r => (prune_terms s m r).2

/-- The index reached from `InvertedIndex()` by a sequence of mutations. -/
def applyOps (ops : List Op) : InvertedIndex :=
  ops.foldl applyOp InvertedIndex.empty

/-- Structural invariant of every reachable index: the term map has
unique keys (a Python dict) and no document frequency exceeds the
total document count. -/
def Inv (s : InvertedIndex) : Prop :=
  (s.index.map Prod.fst).Nodup ∧
    ∀ t, get_document_frequency s t ≤ s.total_docs

/-- The idf cache holds, for every cached term, exactly the value
`calculate_idf` would recompute from the index `s` — the state of a
fresh calculator (empty cache) after any number of lookups against an
unchanged index. -/
def CacheConsistent (s : InvertedIndex) (cache : IdfCache) : Prop :=
  ∀ p ∈ cache, p.2 = uncached_idf s p.1

/-- Every weight in the sparse vector is non-negative. -/
def EntriesNonneg (v : List (String × ℝ)) : Prop := ∀ p ∈ v, 0 ≤ p.2

/-- Every weight in the sparse vector is strictly positive. -/
def EntriesPos (v : List (String × ℝ)) : Prop := ∀ p ∈ v, 0 < p.2

/-- The `(doc, score)` list is sorted by score non-increasing. -/
def SortedByScoreDesc (l : List (ℤ × ℝ)) : Prop :=
  l.Pairwise fun a b => b.2 ≤ a.2

/-- The claim's removal condition for `prune_terms` on an index with
`total_docs > 0`: document frequency below `min_df`, or
`df / total_docs` above `max_df_ratio`. -/
def shouldPrune (s : InvertedIndex) (min_df : ℕ) (max_df_ratio : ℚ)
    (t : String) : Prop :=
  get_document_frequency s t < min_df ∨
    max_df_ratio < (get_document_frequency s t : ℚ) / (s.total_docs : ℚ)

instance (s : InvertedIndex) (m : ℕ) (r : ℚ) :
    DecidablePred (shouldPrune s m r) := fun t => by
  unfold shouldPrune; infer_instance

/-- The set of terms present in the index. -/
def termSet (s : InvertedIndex) : Finset String :=
  (s.index.map Prod.fst).toFinset

/-- The spec's description of the `average_precision` walk, stated
positionally: at every 1-indexed position `j + 1` holding a relevant
document, the number of relevant documents among the first `j + 1`
divided by `j + 1`. -/
def spec_precision_at_hits (ranked : List ℤ) (relevant : Finset ℤ) : List ℚ :=
  (List.range ranked.length).filterMap fun j =>
    if ranked.getD j 0 ∈ relevant then
      some ((((ranked.take (j + 1)).countP fun d => decide (d ∈ relevant)) : ℚ) /
        ((j + 1 : ℕ) : ℚ))
    else none

/-- Generalisation of `spec_precision_at_hits` to a walk that starts at
position `i` with `hits` hits already seen, used to relate the spec's
positional description to the code's accumulating loop. -/
def apWalkSpec (relevant : Finset ℤ) (ds : List ℤ) (i hits : ℕ) : List ℚ :=
  (List.range ds.length).filterMap fun j =>
    if ds.getD j 0 ∈ relevant then
      some (((hits + (ds.take (j + 1)).countP
        (fun d => decide (d ∈ relevant)) : ℕ) : ℚ) / ((i + j : ℕ) : ℚ))
    else none

/-- A small concrete index used by witnesses: the state reached after
`add_document 1 ["a", "a", "b"]` and `add_document 2 ["b"]`. -/
def exIdx : InvertedIndex :=
  ⟨[("a", [(1, 2)]), ("b", [(1, 1), (2, 1)])], [(1, 3), (2, 1)], 2⟩

/-! ### Association-list helper lemmas -/

theorem dictGet?_eq_none_of_not_mem {α β : Type} [DecidableEq α]
    {l : List (α × β)} {k : α} (h : k ∉ l.map Prod.fst) :
    dictGet? l k = none := by
  induction l with
  | nil => rfl
  | cons p rest ih =>
    simp only [List.map_cons, List.mem_cons, not_or] at h
    simp only [dictGet?, if_neg (fun hp : p.1 = k => h.1 hp.symm)]
    exact ih h.2

theorem exists_dictGet?_of_mem {α β : Type} [DecidableEq α]
    {l : List (α × β)} {k : α} (h : k ∈ l.map Prod.fst) :
    ∃ v, dictGet? l k = some v := by
  induction l with
  | nil => simp at h
  | cons p rest ih =>
    by_cases hk : p.1 = k
    · exact ⟨p.2, by simp [dictGet?, hk]⟩
    · simp only [List.map_cons, List.mem_cons] at h
      rcases h with h | h
      · exact absurd h.symm hk
      · simpa [dictGet?, hk] using ih h

theorem dictGet?_mem {α β : Type} [DecidableEq α]
    {l : List (α × β)} {k : α} {v : β} (h : dictGet? l k = some v) :
    (k, v) ∈ l := by
  induction l with
  | nil => simp [dictGet?] at h
  | cons p rest ih =>
    obtain ⟨a, b⟩ := p
    by_cases hk : a = k
    · simp only [dictGet?, if_pos hk] at h
      injection h with h2
      subst hk; subst h2
      exact List.mem_cons_self _ _
    · simp only [dictGet?, if_neg hk] at h
      exact List.mem_cons_of_mem _ (ih h)

theorem dictGet?_append_of_none {α β : Type} [DecidableEq α]
    {l1 : List (α × β)} (l2 : List (α × β)) {k : α}
    (h : dictGet? l1 k = none) :
    dictGet? (l1 ++ l2) k = dictGet? l2 k := by
  induction l1 with
  | nil => rfl
  | cons p rest ih =>
    by_cases hk : p.1 = k
    · simp [dictGet?, hk] at h
    · simp only [dictGet?, if_neg hk] at h
      simpa [dictGet?, hk] using ih h

theorem dictGet?_append_of_some {α β : Type} [DecidableEq α]
    {l1 : List (α × β)} (l2 : List (α × β)) {k : α} {v : β}
    (h : dictGet? l1 k = some v) :
    dictGet? (l1 ++ l2) k = some v := by
  induction l1 with
  | nil => simp [dictGet?] at h
  | cons p rest ih =>
    by_cases hk : p.1 = k
    · simp only [dictGet?, if_pos hk] at h ⊢
      exact h
    · simp only [dictGet?, if_neg hk] at h ⊢
      exact ih h

theorem dictGet?_dictSet_self {α β : Type} [DecidableEq α]
    (l : List (α × β)) (k : α) (v : β) :
    dictGet? (dictSet l k v) k = some v := by
  induction l with
  | nil => simp [dictSet, dictGet?]
  | cons p rest ih =>
    by_cases hk : p.1 = k
    · simp [dictSet, dictGet?, hk]
    · simp [dictSet, dictGet?, hk, ih]

theorem dictGet?_dictSet_ne {α β : Type} [DecidableEq α]
    (l : List (α × β)) {k u : α} (v : β) (h : u ≠ k) :
    dictGet? (dictSet l k v) u = dictGet? l u := by
  have hku : k ≠ u := Ne.symm h
  induction l with
  | nil => simp [dictSet, dictGet?, hku]
  | cons p rest ih =>
    by_cases hk : p.1 = k
    · simp [dictSet, dictGet?, hk, hku]
    · simp [dictSet, dictGet?, hk, ih]

theorem mem_dictSet {α β : Type} [DecidableEq α]
    {l : List (α × β)} {k : α} {v : β} {p : α × β}
    (h : p ∈ dictSet l k v) : p = (k, v) ∨ p ∈ l := by
  induction l with
  | nil => simpa [dictSet] using h
  | cons q rest ih =>
    by_cases hk : q.1 = k
    · simp only [dictSet, if_pos hk, List.mem_cons] at h
      rcases h with h | h
      · exact Or.inl h
      · exact Or.inr (List.mem_cons_of_mem _ h)
    · simp only [dictSet, if_neg hk, List.mem_cons] at h
      rcases h with h | h
      · exact Or.inr (h ▸ List.mem_cons_self _ _)
      · rcases ih h with h2 | h2
        · exact Or.inl h2
        · exact Or.inr (List.mem_cons_of_mem _ h2)

theorem dictSet_of_not_mem_keys {α β : Type} [DecidableEq α]
    {l : List (α × β)} {k : α} (v : β) (h : k ∉ l.map Prod.fst) :
    dictSet l k v = l ++ [(k, v)] := by
  induction l with
  | nil => rfl
  | cons p rest ih =>
    simp only [List.map_cons, List.mem_cons, not_or] at h
    simp only [dictSet, if_neg (fun hp : p.1 = k => h.1 hp.symm),
      List.cons_append, List.cons.injEq, true_and]
    exact ih h.2

/-! ### `appendPosting` lemmas -/

theorem dictGet?_appendPosting_self (l : List (String × List Posting))
    (t : String) (p : Posting) :
    dictGet? (appendPosting l t p) t = some ((dictGet? l t).getD [] ++ [p]) := by
  induction l with
  | nil => simp [appendPosting, dictGet?]
  | cons q rest ih =>
    by_cases hq : q.1 = t
    · simp [appendPosting, dictGet?, hq]
    · simp [appendPosting, dictGet?, hq, ih]

theorem dictGet?_appendPosting_ne (l : List (String × List Posting))
    {t u : String} (p : Posting) (h : u ≠ t) :
    dictGet? (appendPosting l t p) u = dictGet? l u := by
  have htu : t ≠ u := Ne.symm h
  induction l with
  | nil => simp [appendPosting, dictGet?, htu]
  | cons q rest ih =>
    by_cases hq : q.1 = t
    · simp [appendPosting, dictGet?, hq, htu]
    · simp [appendPosting, dictGet?, hq, ih]

theorem map_fst_appendPosting (l : List (String × List Posting))
    (t : String) (p : Posting) :
    (appendPosting l t p).map Prod.fst =
      if t ∈ l.map Prod.fst then l.map Prod.fst else l.map Prod.fst ++ [t] := by
  induction l with
  | nil => simp [appendPosting]
  | cons q rest ih =>
    by_cases hq : q.1 = t
    · simp [appendPosting, hq]
    · have htq : t ≠ q.1 := fun hx => hq hx.symm
      simp only [appendPosting, if_neg hq, List.map_cons, ih, List.mem_cons]
      by_cases hm : t ∈ rest.map Prod.fst
      · simp [hm, htq]
      · simp [hm, htq]

/-! ### `distinctFirst` lemmas -/

theorem mem_distinctFirst_foldl (x : String) :
    ∀ (l acc : List String),
      x ∈ l.foldl (fun acc t => if t ∈ acc then acc else acc ++ [t]) acc ↔
        x ∈ acc ∨ x ∈ l := by
  intro l
  induction l with
  | nil => simp
  | cons t ts ih =>
    intro acc
    simp only [List.foldl_cons, ih, List.mem_cons]
    by_cases ht : t ∈ acc
    · simp only [if_pos ht]
      constructor
      · rintro (h | h)
        · exact Or.inl h
        · exact Or.inr (Or.inr h)
      · rintro (h | h | h)
        · exact Or.inl h
        · exact Or.inl (h ▸ ht)
        · exact Or.inr h
    · simp only [if_neg ht, List.mem_append, List.mem_singleton]
      tauto

theorem mem_distinctFirst {x : String} {l : List String} :
    x ∈ distinctFirst l ↔ x ∈ l := by
  simpa using mem_distinctFirst_foldl x l []

theorem nodup_distinctFirst_foldl :
    ∀ (l acc : List String), acc.Nodup →
      (l.foldl (fun acc t => if t ∈ acc then acc else acc ++ [t]) acc).Nodup := by
  intro l
  induction l with
  | nil => exact fun acc h => h
  | cons t ts ih =>
    intro acc hacc
    simp only [List.foldl_cons]
    by_cases ht : t ∈ acc
    · exact ih _ (by simpa [ht] using hacc)
    · exact ih _ (by simp [List.nodup_append, hacc, ht])

theorem nodup_distinctFirst (l : List String) : (distinctFirst l).Nodup :=
  nodup_distinctFirst_foldl l [] List.nodup_nil

/-! ### Document frequencies under `add_document` and `prune_terms` -/

theorem not_mem_keys_filter {β : Type} {g : String × β → Bool}
    {l : List (String × β)} {k : String} (h : k ∉ l.map Prod.fst) :
    k ∉ (l.filter g).map Prod.fst :=
  fun hm => h (((l.filter_sublist).map Prod.fst).subset hm)

theorem df_foldl_appendPosting (f : String → Posting) (u : String) :
    ∀ (l : List String), l.Nodup → ∀ (idx : List (String × List Posting)),
      ((dictGet? (l.foldl (fun acc t => appendPosting acc t (f t)) idx) u).getD []).length =
        ((dictGet? idx u).getD []).length + (if u ∈ l then 1 else 0) := by
  intro l
  induction l with
  | nil => simp
  | cons t ts ih =>
    intro hnd idx
    have hnd2 := List.nodup_cons.mp hnd
    simp only [List.foldl_cons]
    rw [ih hnd2.2]
    by_cases hu : u = t
    · subst hu
      rw [dictGet?_appendPosting_self]
      have : u ∉ ts := hnd2.1
      simp [this]
    · rw [dictGet?_appendPosting_ne _ _ hu]
      simp [List.mem_cons, hu]

theorem df_add_document (s : InvertedIndex) (d : ℤ) (toks : List String)
    (u : String) :
    get_document_frequency (add_document s d toks) u =
      get_document_frequency s u + (if u ∈ toks then 1 else 0) := by
  show ((dictGet? (add_document s d toks).index u).getD []).length = _
  unfold add_document
  rw [df_foldl_appendPosting _ u (distinctFirst toks) (nodup_distinctFirst toks)]
  simp only [mem_distinctFirst]
  rfl

theorem total_docs_add_document (s : InvertedIndex) (d : ℤ)
    (toks : List String) :
    (add_document s d toks).total_docs = s.total_docs + 1 := rfl

theorem total_docs_prune_terms (s : InvertedIndex) (m : ℕ) (r : ℚ) :
    (prune_terms s m r).2.total_docs = s.total_docs := rfl

/-! ### Unique keys of the term map -/

theorem keys_nodup_appendPosting {l : List (String × List Posting)}
    (t : String) (p : Posting) (h : (l.map Prod.fst).Nodup) :
    ((appendPosting l t p).map Prod.fst).Nodup := by
  rw [map_fst_appendPosting]
  by_cases hm : t ∈ l.map Prod.fst
  · simpa [hm] using h
  · simp [hm, List.nodup_append, h]

theorem keys_nodup_foldl_appendPosting (f : String → Posting) :
    ∀ (l : List String) (idx : List (String × List Posting)),
      (idx.map Prod.fst).Nodup →
      ((l.foldl (fun acc t => appendPosting acc t (f t)) idx).map Prod.fst).Nodup := by
  intro l
  induction l with
  | nil => exact fun idx h => h
  | cons t ts ih =>
    intro idx h
    exact ih _ (keys_nodup_appendPosting t _ h)

theorem keys_nodup_add_document {s : InvertedIndex} (d : ℤ)
    (toks : List String) (h : (s.index.map Prod.fst).Nodup) :
    ((add_document s d toks).index.map Prod.fst).Nodup :=
  keys_nodup_foldl_appendPosting _ _ _ h

theorem keys_nodup_prune_terms {s : InvertedIndex} (m : ℕ) (r : ℚ)
    (h : (s.index.map Prod.fst).Nodup) :
    ((prune_terms s m r).2.index.map Prod.fst).Nodup :=
  List.Nodup.sublist ((s.index.filter_sublist).map Prod.fst) h

/-! ### Lookup in a filtered term map -/

theorem dictGet?_filter {β : Type} (g : String × β → Bool) :
    ∀ (l : List (String × β)), (l.map Prod.fst).Nodup → ∀ t,
      dictGet? (l.filter g) t =
        match dictGet? l t with
        | none => none
        | some v => if g (t, v) then some v else none := by
  intro l
  induction l with
  | nil => intro _ t; rfl
  | cons p rest ih =>
    intro hnd t
    obtain ⟨a, b⟩ := p
    have hnd2 : a ∉ rest.map Prod.fst ∧ (rest.map Prod.fst).Nodup := by
      rw [List.map_cons] at hnd
      exact List.nodup_cons.mp hnd
    by_cases ha : a = t
    · subst ha
      by_cases hg : g (a, b)
      · simp [List.filter_cons, hg, dictGet?]
      · simp only [List.filter_cons, hg, Bool.false_eq_true, if_false, dictGet?,
          if_pos rfl]
        rw [dictGet?_eq_none_of_not_mem (not_mem_keys_filter hnd2.1)]
        simp [hg]
    · by_cases hg : g (a, b)
      · simp only [List.filter_cons, hg, if_true, dictGet?, if_neg ha]
        exact ih hnd2.2 t
      · simp only [List.filter_cons, hg, Bool.false_eq_true, if_false, dictGet?,
          if_neg ha]
        exact ih hnd2.2 t

theorem get_postings_prune {s : InvertedIndex} {m : ℕ} {r : ℚ}
    (hnd : (s.index.map Prod.fst).Nodup) (t : String) :
    get_postings (prune_terms s m r).2 t =
      if pruneFlag s.total_docs m r (get_document_frequency s t) then []
      else get_postings s t := by
  show (dictGet? (s.index.filter _) t).getD [] = _
  rw [dictGet?_filter _ s.index hnd t]
  unfold get_document_frequency get_postings
  cases hlook : dictGet? s.index t with
  | none => simp [hlook]
  | some ps => by_cases hg : pruneFlag s.total_docs m r ps.length <;> simp [hlook, hg]

/-! ### The reachable-index invariant -/

theorem inv_empty : Inv InvertedIndex.empty := by
  constructor
  · exact List.nodup_nil
  · intro t
    simp [get_document_frequency, get_postings, InvertedIndex.empty, dictGet?]

theorem inv_add_document {s : InvertedIndex} (d : ℤ) (toks : List String)
    (h : Inv s) : Inv (add_document s d toks) := by
  refine ⟨keys_nodup_add_document d toks h.1, fun t => ?_⟩
  rw [df_add_document, total_docs_add_document]
  have := h.2 t
  split <;> omega

theorem inv_prune_terms {s : InvertedIndex} (m : ℕ) (r : ℚ)
    (h : Inv s) : Inv (prune_terms s m r).2 := by
  refine ⟨keys_nodup_prune_terms m r h.1, fun t => ?_⟩
  show (get_postings _ t).length ≤ _
  rw [get_postings_prune h.1 t, total_docs_prune_terms]
  have := h.2 t
  split
  · simp
  · exact this

theorem inv_applyOp {s : InvertedIndex} (op : Op) (h : Inv s) :
    Inv (applyOp s op) := by
  cases op with
  | add d toks => exact inv_add_document d toks h
  | prune m r => exact inv_prune_terms m r h

theorem inv_applyOps (ops : List Op) : Inv (applyOps ops) := by
  suffices h : ∀ (l : List Op) (s : InvertedIndex), Inv s → Inv (l.foldl applyOp s) by
    exact h ops InvertedIndex.empty inv_empty
  intro l
  induction l with
  | nil => exact fun s h => h
  | cons op rest ih => exact fun s h => ih _ (inv_applyOp op h)

/-! ### Cache behaviour of `calculate_idf` -/

theorem calculate_idf_hit {s : InvertedIndex} {cache : IdfCache} {t : String}
    {v : ℝ} (h : dictGet? cache t = some v) :
    calculate_idf s cache t = (v, cache) := by
  unfold calculate_idf
  rw [h]

theorem calculate_idf_miss {s : InvertedIndex} {cache : IdfCache} {t : String}
    (h : dictGet? cache t = none) :
    calculate_idf s cache t =
      (uncached_idf s t, cache ++ [(t, uncached_idf s t)]) := by
  unfold calculate_idf
  rw [h]

theorem calculate_idf_snd_of_mem_keys {s : InvertedIndex} {cache : IdfCache}
    {t : String} (h : t ∈ cache.map Prod.fst) :
    (calculate_idf s cache t).2 = cache := by
  obtain ⟨v, hv⟩ := exists_dictGet?_of_mem h
  rw [calculate_idf_hit hv]

theorem mem_keys_calculate_idf (s : InvertedIndex) (cache : IdfCache)
    (t : String) : t ∈ ((calculate_idf s cache t).2).map Prod.fst := by
  cases hl : dictGet? cache t with
  | some v =>
    rw [calculate_idf_hit hl]
    exact List.mem_map_of_mem Prod.fst (dictGet?_mem hl)
  | none =>
    rw [calculate_idf_miss hl]
    simp

theorem keys_subset_calculate_idf (s : InvertedIndex) (cache : IdfCache)
    (t : String) {u : String} (h : u ∈ cache.map Prod.fst) :
    u ∈ ((calculate_idf s cache t).2).map Prod.fst := by
  cases hl : dictGet? cache t with
  | some v =>
    rw [calculate_idf_hit hl]
    exact h
  | none =>
    rw [calculate_idf_miss hl]
    simp [h]

theorem calculate_idf_consistent {s : InvertedIndex} {cache : IdfCache}
    (h : CacheConsistent s cache) (t : String) :
    (calculate_idf s cache t).1 = uncached_idf s t ∧
      CacheConsistent s (calculate_idf s cache t).2 := by
  cases hl : dictGet? cache t with
  | some v =>
    rw [calculate_idf_hit hl]
    exact ⟨h _ (dictGet?_mem hl), h⟩
  | none =>
    rw [calculate_idf_miss hl]
    refine ⟨rfl, fun p hp => ?_⟩
    rcases List.mem_append.mp hp with hp | hp
    · exact h _ hp
    · simp only [List.mem_singleton] at hp
      subst hp
      rfl

/-! ### Sign of the idf and tf values -/

theorem uncached_idf_nonneg {s : InvertedIndex} (hinv : Inv s) (t : String) :
    0 ≤ uncached_idf s t := by
  unfold uncached_idf
  split
  · exact le_refl 0
  · rename_i hdf
    have hpos : 0 < get_document_frequency s t := Nat.pos_of_ne_zero hdf
    apply Real.logb_nonneg (by norm_num : (1 : ℝ) < 10)
    rw [le_div_iff₀ (by exact_mod_cast hpos), one_mul]
    exact_mod_cast hinv.2 t

theorem uncached_idf_eq_zero_iff {s : InvertedIndex} (hinv : Inv s)
    (t : String) :
    uncached_idf s t = 0 ↔
      (get_document_frequency s t = 0 ∨
        get_document_frequency s t = s.total_docs) := by
  unfold uncached_idf
  split
  · rename_i hdf
    simp [hdf]
  · rename_i hdf
    have hpos : 0 < get_document_frequency s t := Nat.pos_of_ne_zero hdf
    have hle := hinv.2 t
    constructor
    · intro hz
      right
      by_contra hne
      have hlt : get_document_frequency s t < s.total_docs :=
        lt_of_le_of_ne hle hne
      have h1 : (1 : ℝ) < (s.total_docs : ℝ) / (get_document_frequency s t : ℝ) := by
        rw [lt_div_iff₀ (by exact_mod_cast hpos), one_mul]
        exact_mod_cast hlt
      exact absurd hz (ne_of_gt (Real.logb_pos (by norm_num) h1))
    · rintro (h0 | heq)
      · exact absurd h0 hdf
      · rw [heq, div_self (by exact_mod_cast (hpos.trans_le hle).ne')]
        exact Real.logb_one

theorem calculate_tf_normalized_eq (tf dl : ℕ) :
    calculate_tf tf dl "normalized" = (tf : ℝ) / ((max dl 1 : ℕ) : ℝ) := by
  unfold calculate_tf
  rw [if_pos rfl]

theorem calculate_tf_normalized_nonneg (tf dl : ℕ) :
    0 ≤ calculate_tf tf dl "normalized" := by
  rw [calculate_tf_normalized_eq]
  positivity

/-! ### Structure of `calculate_query_vector` -/

theorem query_fold_eq (s : InvertedIndex) (qts : List String) :
    ∀ (l : List String) (v0 : List (String × ℝ)) (c0 : IdfCache),
      l.Nodup → (∀ t ∈ l, t ∉ v0.map Prod.fst) → CacheConsistent s c0 →
      (l.foldl (fun acc t =>
          let tf := calculate_tf (qts.count t) qts.length "normalized"
          let r := calculate_idf s acc.2 t
          (dictSet acc.1 t (tf * r.1), r.2)) (v0, c0)).1 =
        v0 ++ l.map (fun t =>
          (t, calculate_tf (qts.count t) qts.length "normalized" *
            uncached_idf s t)) := by
  intro l
  induction l with
  | nil => intro v0 c0 _ _ _; simp
  | cons t ts ih =>
    intro v0 c0 hnd hdisj hc
    have hnd2 := List.nodup_cons.mp hnd
    have hval := calculate_idf_consistent hc t
    simp only [List.foldl_cons]
    have hstep :
        (dictSet v0 t (calculate_tf (qts.count t) qts.length "normalized" *
            (calculate_idf s c0 t).1),
          (calculate_idf s c0 t).2) =
        (v0 ++ [(t, calculate_tf (qts.count t) qts.length "normalized" *
            uncached_idf s t)], (calculate_idf s c0 t).2) := by
      rw [hval.1, dictSet_of_not_mem_keys _ (hdisj t (List.mem_cons_self t ts))]
    rw [hstep, ih _ _ hnd2.2 ?_ hval.2]
    · simp
    · intro u hu
      simp only [List.map_append, List.map_cons, List.map_nil, List.mem_append,
        List.mem_singleton, not_or]
      exact ⟨hdisj u (List.mem_cons_of_mem _ hu),
        fun hx => hnd2.1 (hx ▸ hu)⟩

theorem calculate_query_vector_eq {s : InvertedIndex} {cache : IdfCache}
    (h : CacheConsistent s cache) (qts : List String) :
    (calculate_query_vector s cache qts).1 =
      (distinctFirst qts).map (fun t =>
        (t, calculate_tf (qts.count t) qts.length "normalized" *
          uncached_idf s t)) := by
  unfold calculate_query_vector
  rw [query_fold_eq s qts (distinctFirst qts) [] cache
    (nodup_distinctFirst qts) (by simp) h]
  simp

theorem query_fold_cache_keys (s : InvertedIndex) (qts : List String) :
    ∀ (l : List String) (v0 : List (String × ℝ)) (c0 : IdfCache),
      (∀ u, u ∈ c0.map Prod.fst →
        u ∈ ((l.foldl (fun acc t =>
          let tf := calculate_tf (qts.count t) qts.length "normalized"
          let r := calculate_idf s acc.2 t
          (dictSet acc.1 t (tf * r.1), r.2)) (v0, c0)).2).map Prod.fst) ∧
      (∀ u ∈ l,
        u ∈ ((l.foldl (fun acc t =>
          let tf := calculate_tf (qts.count t) qts.length "normalized"
          let r := calculate_idf s acc.2 t
          (dictSet acc.1 t (tf * r.1), r.2)) (v0, c0)).2).map Prod.fst) := by
  intro l
  induction l with
  | nil =>
    intro v0 c0
    exact ⟨fun u h => h, fun u h => absurd h (List.not_mem_nil u)⟩
  | cons t ts ih =>
    intro v0 c0
    simp only [List.foldl_cons]
    constructor
    · intro u hu
      exact (ih _ _).1 u (keys_subset_calculate_idf s c0 t hu)
    · intro u hu
      rcases List.mem_cons.mp hu with hu | hu
      · subst hu
        exact (ih _ _).1 u (mem_keys_calculate_idf s c0 u)
      · exact (ih _ _).2 u hu

theorem mem_keys_query_cache (s : InvertedIndex) (cache : IdfCache)
    (qts : List String) {u : String} (hu : u ∈ qts) :
    u ∈ ((calculate_query_vector s cache qts).2).map Prod.fst := by
  unfold calculate_query_vector
  exact (query_fold_cache_keys s qts (distinctFirst qts) [] cache).2 u
    (mem_distinctFirst.mpr hu)

/-! ### `calculate_tfidf` and `calculate_document_vector` -/

theorem calculate_tfidf_snd_of_mem_keys {s : InvertedIndex} {cache : IdfCache}
    {t : String} (d : ℤ) (h : t ∈ cache.map Prod.fst) :
    (calculate_tfidf s cache t d).2 = cache := by
  simp only [calculate_tfidf]
  split
  · rfl
  · exact calculate_idf_snd_of_mem_keys h

theorem doc_fold_entries_pos (s : InvertedIndex) (d : ℤ) :
    ∀ (terms : List String) (v0 : List (String × ℝ)) (c0 : IdfCache),
      EntriesPos v0 →
      EntriesPos ((terms.foldl (fun acc t =>
        let r := calculate_tfidf s acc.2 t d
        (if 0 < r.1 then dictSet acc.1 t r.1 else acc.1, r.2)) (v0, c0)).1) := by
  intro terms
  induction terms with
  | nil => exact fun v0 c0 h => h
  | cons t ts ih =>
    intro v0 c0 h
    simp only [List.foldl_cons]
    apply ih
    by_cases hpos : 0 < (calculate_tfidf s c0 t d).1
    · simp only [if_pos hpos]
      intro p hp
      rcases mem_dictSet hp with hp | hp
      · rw [hp]
        exact hpos
      · exact h p hp
    · simp only [if_neg hpos]
      exact h

theorem entries_pos_calculate_document_vector (s : InvertedIndex)
    (cache : IdfCache) (d : ℤ) (terms : List String) :
    EntriesPos (calculate_document_vector s cache d terms).1 :=
  doc_fold_entries_pos s d terms [] cache (fun p hp => absurd hp (List.not_mem_nil p))

theorem calculate_document_vector_cache_stable {s : InvertedIndex}
    {cache : IdfCache} (d : ℤ) {terms : List String}
    (h : ∀ t ∈ terms, t ∈ cache.map Prod.fst) :
    (calculate_document_vector s cache d terms).2 = cache := by
  unfold calculate_document_vector
  suffices hgen : ∀ (l : List String) (v0 : List (String × ℝ)),
      (∀ t ∈ l, t ∈ cache.map Prod.fst) →
      ((l.foldl (fun acc t =>
        let r := calculate_tfidf s acc.2 t d
        (if 0 < r.1 then dictSet acc.1 t r.1 else acc.1, r.2)) (v0, cache)).2) = cache by
    exact hgen terms [] h
  intro l
  induction l with
  | nil => exact fun v0 _ => rfl
  | cons t ts ih =>
    intro v0 hl
    simp only [List.foldl_cons]
    have hc : (calculate_tfidf s cache t d).2 = cache :=
      calculate_tfidf_snd_of_mem_keys d (hl t (List.mem_cons_self t ts))
    rw [hc]
    exact ih _ (fun u hu => hl u (List.mem_cons_of_mem _ hu))

open Classical in
theorem vss_fold_eq (s : InvertedIndex) (qv : List (String × ℝ))
    (qts : List String) (c1 : IdfCache)
    (hstable : ∀ d : ℤ, (calculate_document_vector s c1 d qts).2 = c1) :
    ∀ (cands : List ℤ) (acc0 : List (ℤ × ℝ)),
      (cands.foldl (fun acc d =>
        let dr := calculate_document_vector s acc.2 d qts
        let sim := cosine_similarity qv dr.1
        (if 0 < sim then acc.1 ++ [(d, sim)] else acc.1, dr.2)) (acc0, c1)) =
      (acc0 ++ cands.filterMap (fun d =>
        let sim := cosine_similarity qv (calculate_document_vector s c1 d qts).1
        if 0 < sim then some (d, sim) else none), c1) := by
  intro cands
  induction cands with
  | nil => intro acc0; simp
  | cons d ds ih =>
    intro acc0
    simp only [List.foldl_cons, List.filterMap_cons]
    rw [hstable d]
    by_cases hsim : 0 < cosine_similarity qv (calculate_document_vector s c1 d qts).1
    · simp only [if_pos hsim]
      rw [ih (acc0 ++ [(d, cosine_similarity qv (calculate_document_vector s c1 d qts).1)])]
      simp
    · simp only [if_neg hsim]
      exact ih acc0

/-! ### Descending insertion sort on scores -/

theorem mem_insertByScore {p q : ℤ × ℝ} :
    ∀ {l : List (ℤ × ℝ)}, q ∈ insertByScore p l ↔ q = p ∨ q ∈ l := by
  intro l
  induction l with
  | nil => simp [insertByScore]
  | cons r rest ih =>
    unfold insertByScore
    by_cases h : r.2 ≤ p.2
    · simp [h]
    · simp only [if_neg h, List.mem_cons, ih]
      tauto

theorem length_insertByScore (p : ℤ × ℝ) :
    ∀ (l : List (ℤ × ℝ)), (insertByScore p l).length = l.length + 1 := by
  intro l
  induction l with
  | nil => rfl
  | cons r rest ih =>
    unfold insertByScore
    by_cases h : r.2 ≤ p.2
    · simp [h]
    · simp [h, ih]

theorem sorted_insertByScore (p : ℤ × ℝ) {l : List (ℤ × ℝ)}
    (h : SortedByScoreDesc l) : SortedByScoreDesc (insertByScore p l) := by
  induction l with
  | nil => simp [insertByScore, SortedByScoreDesc]
  | cons r rest ih =>
    unfold SortedByScoreDesc at h ⊢
    rw [List.pairwise_cons] at h
    unfold insertByScore
    by_cases hr : r.2 ≤ p.2
    · rw [if_pos hr]
      refine List.Pairwise.cons ?_ (List.Pairwise.cons h.1 h.2)
      intro x hx
      rcases List.mem_cons.mp hx with hx | hx
      · rw [hx]
        exact hr
      · exact le_trans (h.1 x hx) hr
    · rw [if_neg hr]
      refine List.Pairwise.cons ?_ (ih h.2)
      intro x hx
      rcases mem_insertByScore.mp hx with hx | hx
      · rw [hx]
        exact le_of_lt (lt_of_not_le hr)
      · exact h.1 x hx

theorem mem_sortByScore {q : ℤ × ℝ} :
    ∀ {l : List (ℤ × ℝ)}, q ∈ sortByScore l ↔ q ∈ l := by
  intro l
  induction l with
  | nil => simp [sortByScore]
  | cons r rest ih =>
    show q ∈ insertByScore r (sortByScore rest) ↔ _
    rw [mem_insertByScore]
    simp [ih]

theorem length_sortByScore :
    ∀ (l : List (ℤ × ℝ)), (sortByScore l).length = l.length := by
  intro l
  induction l with
  | nil => rfl
  | cons r rest ih =>
    show (insertByScore r (sortByScore rest)).length = _
    rw [length_insertByScore, ih]
    rfl

theorem sorted_sortByScore :
    ∀ (l : List (ℤ × ℝ)), SortedByScoreDesc (sortByScore l) := by
  intro l
  induction l with
  | nil => exact List.Pairwise.nil
  | cons r rest ih => exact sorted_insertByScore r ih

/-! ### Folded unions and intersections of posting sets -/

theorem mem_foldl_union (s : InvertedIndex) (d : ℤ) :
    ∀ (l : List String) (init : Finset ℤ),
      (d ∈ l.foldl (fun acc u => acc ∪ docIdsOf s u) init ↔
        d ∈ init ∨ ∃ t ∈ l, d ∈ docIdsOf s t) := by
  intro l
  induction l with
  | nil => simp
  | cons t ts ih =>
    intro init
    simp only [List.foldl_cons, ih, Finset.mem_union, List.mem_cons]
    constructor
    · rintro ((h | h) | ⟨u, hu, hd⟩)
      · exact Or.inl h
      · exact Or.inr ⟨t, Or.inl rfl, h⟩
      · exact Or.inr ⟨u, Or.inr hu, hd⟩
    · rintro (h | ⟨u, (rfl | hu), hd⟩)
      · exact Or.inl (Or.inl h)
      · exact Or.inl (Or.inr hd)
      · exact Or.inr ⟨u, hu, hd⟩

theorem mem_foldl_inter (s : InvertedIndex) (d : ℤ) :
    ∀ (l : List String) (init : Finset ℤ),
      (d ∈ l.foldl (fun acc u => acc ∩ docIdsOf s u) init ↔
        d ∈ init ∧ ∀ t ∈ l, d ∈ docIdsOf s t) := by
  intro l
  induction l with
  | nil => simp
  | cons t ts ih =>
    intro init
    simp only [List.foldl_cons, ih, Finset.mem_inter, List.mem_cons]
    constructor
    · rintro ⟨⟨h1, h2⟩, h3⟩
      exact ⟨h1, fun u hu => by rcases hu with rfl | hu; exacts [h2, h3 u hu]⟩
    · rintro ⟨h1, h2⟩
      exact ⟨⟨h1, h2 t (Or.inl rfl)⟩, fun u hu => h2 u (Or.inr hu)⟩

/-! ### The average-precision walk, positionally -/

theorem apWalkSpec_cons (relevant : Finset ℤ) (d : ℤ) (rest : List ℤ)
    (i hits : ℕ) :
    apWalkSpec relevant (d :: rest) i hits =
      if d ∈ relevant then
        ((hits + 1 : ℕ) : ℚ) / ((i : ℕ) : ℚ) ::
          apWalkSpec relevant rest (i + 1) (hits + 1)
      else apWalkSpec relevant rest (i + 1) hits := by
  unfold apWalkSpec
  rw [List.length_cons, List.range_succ_eq_map, List.filterMap_cons,
    List.filterMap_map]
  by_cases hd : d ∈ relevant
  · have hcount : ∀ l : List ℤ,
        List.countP (fun x => decide (x ∈ relevant)) (d :: l) =
          List.countP (fun x => decide (x ∈ relevant)) l + 1 := by
      intro l
      rw [List.countP_cons]
      simp [hd]
    simp only [List.getD_cons_zero, if_pos hd, List.take_succ_cons, List.take_zero,
      hcount, List.countP_nil]
    rw [List.cons_eq_cons]
    refine ⟨by norm_num, ?_⟩
    apply List.filterMap_congr
    intro j _
    simp only [Function.comp_apply, List.getD_cons_succ, Nat.succ_eq_add_one]
    by_cases hjr : rest.getD j 0 ∈ relevant
    · rw [if_pos hjr, if_pos hjr]
      congr 1
      push_cast
      ring
    · rw [if_neg hjr, if_neg hjr]
  · have hcount : ∀ l : List ℤ,
        List.countP (fun x => decide (x ∈ relevant)) (d :: l) =
          List.countP (fun x => decide (x ∈ relevant)) l := by
      intro l
      rw [List.countP_cons]
      simp [hd]
    simp only [List.getD_cons_zero, if_neg hd, List.take_succ_cons, hcount]
    apply List.filterMap_congr
    intro j _
    simp only [Function.comp_apply, List.getD_cons_succ, Nat.succ_eq_add_one]
    by_cases hjr : rest.getD j 0 ∈ relevant
    · rw [if_pos hjr, if_pos hjr]
      congr 1
      push_cast
      ring
    · rw [if_neg hjr, if_neg hjr]

theorem precisionWalk_eq (relevant : Finset ℤ) :
    ∀ (ds : List ℤ) (i hits : ℕ),
      precisionWalk relevant ds i hits = apWalkSpec relevant ds i hits := by
  intro ds
  induction ds with
  | nil => intro i hits; rfl
  | cons d rest ih =>
    intro i hits
    rw [apWalkSpec_cons]
    by_cases hd : d ∈ relevant
    · simp [precisionWalk, hd, ih]
    · simp [precisionWalk, hd, ih]

theorem spec_precision_at_hits_eq_walk (ranked : List ℤ)
    (relevant : Finset ℤ) :
    spec_precision_at_hits ranked relevant =
      precisionWalk relevant ranked 1 0 := by
  rw [precisionWalk_eq]
  unfold spec_precision_at_hits apWalkSpec
  apply List.filterMap_congr
  intro j _
  by_cases hj : ranked.getD j 0 ∈ relevant
  · rw [if_pos hj, if_pos hj]
    congr 1
    push_cast
    ring
  · rw [if_neg hj, if_neg hj]

theorem precisionWalk_nil_of_no_hits (relevant : Finset ℤ) :
    ∀ (ds : List ℤ) (i hits : ℕ), (∀ d ∈ ds, d ∉ relevant) →
      precisionWalk relevant ds i hits = [] := by
  intro ds
  induction ds with
  | nil => intro i hits _; rfl
  | cons d rest ih =>
    intro i hits h
    simp only [precisionWalk, if_neg (h d (List.mem_cons_self d rest))]
    exact ih _ _ (fun u hu => h u (List.mem_cons_of_mem _ hu))

/-! ### Cosine-similarity infrastructure -/

open Classical in
theorem cosine_similarity_def (v1 v2 : List (String × ℝ)) :
    cosine_similarity v1 v2 =
      if vecKeys v1 ∩ vecKeys v2 = ∅ then 0
      else if Real.sqrt (sumSquares v1) = 0 ∨ Real.sqrt (sumSquares v2) = 0 then 0
      else (∑ t ∈ vecKeys v1 ∩ vecKeys v2, getW v1 t * getW v2 t) /
        (Real.sqrt (sumSquares v1) * Real.sqrt (sumSquares v2)) := rfl

theorem getW_cons (p : String × ℝ) (rest : List (String × ℝ)) (t : String) :
    getW (p :: rest) t = if p.1 = t then p.2 else getW rest t := by
  unfold getW
  by_cases h : p.1 = t
  · simp [dictGet?, h]
  · simp [dictGet?, h]

theorem getW_nonneg {v : List (String × ℝ)} (h : EntriesNonneg v) (t : String) :
    0 ≤ getW v t := by
  unfold getW
  cases hl : dictGet? v t with
  | none => simp
  | some w => simpa using h _ (dictGet?_mem hl)

theorem sumSquares_nonneg (v : List (String × ℝ)) : 0 ≤ sumSquares v := by
  unfold sumSquares
  apply List.sum_nonneg
  intro x hx
  rcases List.mem_map.mp hx with ⟨p, _, hp⟩
  rw [← hp]
  positivity

theorem sum_getW_sq_keys_le (v : List (String × ℝ)) :
    ∑ t ∈ vecKeys v, getW v t ^ 2 ≤ sumSquares v := by
  induction v with
  | nil => simp [vecKeys, sumSquares]
  | cons p rest ih =>
    have hkeys : vecKeys (p :: rest) = insert p.1 (vecKeys rest) := by
      simp [vecKeys]
    have hsq : sumSquares (p :: rest) = p.2 ^ 2 + sumSquares rest := by
      simp [sumSquares]
    rw [hkeys, hsq]
    by_cases hm : p.1 ∈ vecKeys rest
    · rw [Finset.insert_eq_self.mpr hm]
      rw [← Finset.add_sum_erase _ _ hm]
      have h1 : getW (p :: rest) p.1 ^ 2 = p.2 ^ 2 := by
        rw [getW_cons, if_pos rfl]
      have h2 : ∑ t ∈ (vecKeys rest).erase p.1, getW (p :: rest) t ^ 2 =
          ∑ t ∈ (vecKeys rest).erase p.1, getW rest t ^ 2 := by
        apply Finset.sum_congr rfl
        intro t ht
        rw [getW_cons, if_neg (Finset.ne_of_mem_erase ht).symm]
      rw [h1, h2]
      have h3 : ∑ t ∈ (vecKeys rest).erase p.1, getW rest t ^ 2 ≤
          ∑ t ∈ vecKeys rest, getW rest t ^ 2 :=
        Finset.sum_le_sum_of_subset_of_nonneg (Finset.erase_subset _ _)
          (fun t _ _ => sq_nonneg _)
      exact add_le_add_left (h3.trans ih) _
    · rw [Finset.sum_insert hm]
      have h1 : getW (p :: rest) p.1 ^ 2 = p.2 ^ 2 := by
        rw [getW_cons, if_pos rfl]
      have h2 : ∑ t ∈ vecKeys rest, getW (p :: rest) t ^ 2 =
          ∑ t ∈ vecKeys rest, getW rest t ^ 2 := by
        apply Finset.sum_congr rfl
        intro t ht
        rw [getW_cons, if_neg (fun hx => hm (by rw [hx]; exact ht))]
      rw [h1, h2]
      exact add_le_add_left ih _

theorem sum_getW_sq_le {v : List (String × ℝ)} {K : Finset String}
    (hK : K ⊆ vecKeys v) :
    ∑ t ∈ K, getW v t ^ 2 ≤ sumSquares v :=
  le_trans
    (Finset.sum_le_sum_of_subset_of_nonneg hK (fun _ _ _ => sq_nonneg _))
    (sum_getW_sq_keys_le v)

theorem dot_le_sqrt_mul_sqrt (v1 v2 : List (String × ℝ)) :
    ∑ t ∈ vecKeys v1 ∩ vecKeys v2, getW v1 t * getW v2 t ≤
      Real.sqrt (sumSquares v1) * Real.sqrt (sumSquares v2) := by
  refine le_trans
    (Real.sum_mul_le_sqrt_mul_sqrt _ (fun t => getW v1 t) (fun t => getW v2 t)) ?_
  apply mul_le_mul
  · exact Real.sqrt_le_sqrt (sum_getW_sq_le Finset.inter_subset_left)
  · exact Real.sqrt_le_sqrt (sum_getW_sq_le Finset.inter_subset_right)
  · exact Real.sqrt_nonneg _
  · exact Real.sqrt_nonneg _

theorem dot_nonneg {v1 v2 : List (String × ℝ)} (h1 : EntriesNonneg v1)
    (h2 : EntriesNonneg v2) :
    0 ≤ ∑ t ∈ vecKeys v1 ∩ vecKeys v2, getW v1 t * getW v2 t :=
  Finset.sum_nonneg fun t _ => mul_nonneg (getW_nonneg h1 t) (getW_nonneg h2 t)

theorem dictGet?_of_mem_nodup {α β : Type} [DecidableEq α]
    {l : List (α × β)} (hnd : (l.map Prod.fst).Nodup) {p : α × β}
    (hp : p ∈ l) : dictGet? l p.1 = some p.2 := by
  induction l with
  | nil => simp at hp
  | cons q rest ih =>
    rw [List.map_cons] at hnd
    have hnd2 := List.nodup_cons.mp hnd
    rcases List.mem_cons.mp hp with rfl | hp2
    · simp [dictGet?]
    · have hne : q.1 ≠ p.1 := by
        intro hx
        exact hnd2.1 (by rw [hx]; exact List.mem_map_of_mem Prod.fst hp2)
      simp only [dictGet?, if_neg hne]
      exact ih hnd2.2 hp2

/-! ### Claim theorems -/

/-- C10: for the empty query-term list, `boolean_search` returns the
empty result regardless of the operator — in particular an `AND` over
zero terms yields no documents rather than the whole corpus. -/
theorem boolean_search_empty_query (s : InvertedIndex) (operator : String) :
    boolean_search s [] operator = ∅ := rfl

/-- C6: for every non-empty query-term list, `boolean_search` with
operator `"AND"` returns exactly the intersection of the per-term
document-id sets and with operator `"OR"` exactly their union; a term
with no postings contributes the empty set, so an `AND` query holding a
zero-posting term returns the empty result. -/
theorem boolean_search_and_or (s : InvertedIndex) (query_terms : List String)
    (h : query_terms ≠ []) :
    (∀ d : ℤ, d ∈ boolean_search s query_terms "AND" ↔
        ∀ t ∈ query_terms, d ∈ docIdsOf s t)
    ∧ (∀ d : ℤ, d ∈ boolean_search s query_terms "OR" ↔
        ∃ t ∈ query_terms, d ∈ docIdsOf s t)
    ∧ ((∃ t ∈ query_terms, get_postings s t = []) →
        boolean_search s query_terms "AND" = ∅) := by
  cases query_terms with
  | nil => exact absurd rfl h
  | cons t ts =>
    have hbooland : boolean_search s (t :: ts) "AND" =
        ts.foldl (fun acc u => acc ∩ docIdsOf s u) (docIdsOf s t) := by
      show (if ("AND" : String) = "AND" then
          ts.foldl (fun acc u => acc ∩ docIdsOf s u) (docIdsOf s t)
        else (t :: ts).foldl (fun acc u => acc ∪ docIdsOf s u) ∅) = _
      rw [if_pos rfl]
    have hboolor : boolean_search s (t :: ts) "OR" =
        (t :: ts).foldl (fun acc u => acc ∪ docIdsOf s u) ∅ := by
      show (if ("OR" : String) = "AND" then
          ts.foldl (fun acc u => acc ∩ docIdsOf s u) (docIdsOf s t)
        else (t :: ts).foldl (fun acc u => acc ∪ docIdsOf s u) ∅) = _
      rw [if_neg (by decide)]
    have hand : ∀ d : ℤ, d ∈ boolean_search s (t :: ts) "AND" ↔
        ∀ u ∈ t :: ts, d ∈ docIdsOf s u := by
      intro d
      rw [hbooland, mem_foldl_inter]
      constructor
      · rintro ⟨h1, h2⟩ u hu
        rcases List.mem_cons.mp hu with rfl | hu
        · exact h1
        · exact h2 u hu
      · intro hall
        exact ⟨hall t (List.mem_cons_self t ts),
          fun u hu => hall u (List.mem_cons_of_mem _ hu)⟩
    refine ⟨hand, ?_, ?_⟩
    · intro d
      rw [hboolor, mem_foldl_union]
      simp
    · rintro ⟨u, hu, hpost⟩
      apply Finset.eq_empty_iff_forall_not_mem.mpr
      intro d hd
      have := (hand d).mp hd u hu
      rw [docIdsOf, hpost] at this
      simp at this

/-- C6 witness: the theorem applied to a concrete two-document index
and the query `["a", "b"]`. -/
theorem boolean_search_and_or_witness :
    (["a", "b"] : List String) ≠ [] ∧
      ((∀ d : ℤ, d ∈ boolean_search exIdx ["a", "b"] "AND" ↔
          ∀ t ∈ ["a", "b"], d ∈ docIdsOf exIdx t)
      ∧ (∀ d : ℤ, d ∈ boolean_search exIdx ["a", "b"] "OR" ↔
          ∃ t ∈ ["a", "b"], d ∈ docIdsOf exIdx t)
      ∧ ((∃ t ∈ ["a", "b"], get_postings exIdx t = []) →
          boolean_search exIdx ["a", "b"] "AND" = ∅)) :=
  ⟨by decide, boolean_search_and_or exIdx ["a", "b"] (by decide)⟩

/-- C8: `average_precision` walks the ranked list 1-indexed, appending
`hits_so_far / position` at every relevant document; the result is the
sum of these values divided by the size of the relevant set (not by
the number of hits), and is `0` when the relevant set is empty or no
ranked document is relevant. -/
theorem average_precision_spec (retrieved_ranked : List ℤ)
    (relevant : Finset ℤ) :
    average_precision retrieved_ranked relevant =
      (if relevant = ∅ then 0
       else (spec_precision_at_hits retrieved_ranked relevant).sum /
         (relevant.card : ℚ))
    ∧ (relevant = ∅ → average_precision retrieved_ranked relevant = 0)
    ∧ ((∀ d ∈ retrieved_ranked, d ∉ relevant) →
        average_precision retrieved_ranked relevant = 0) := by
  have hAP : average_precision retrieved_ranked relevant =
      if relevant = ∅ then 0
      else if precisionWalk relevant retrieved_ranked 1 0 = [] then 0
      else (precisionWalk relevant retrieved_ranked 1 0).sum /
        (relevant.card : ℚ) := rfl
  refine ⟨?_, ?_, ?_⟩
  · rw [hAP]
    by_cases hrel : relevant = ∅
    · rw [if_pos hrel, if_pos hrel]
    · rw [if_neg hrel, if_neg hrel, spec_precision_at_hits_eq_walk]
      by_cases hw : precisionWalk relevant retrieved_ranked 1 0 = []
      · rw [if_pos hw, hw]
        simp
      · rw [if_neg hw]
  · intro hrel
    rw [hAP, if_pos hrel]
  · intro hnone
    rw [hAP]
    by_cases hrel : relevant = ∅
    · rw [if_pos hrel]
    · rw [if_neg hrel,
        if_pos (precisionWalk_nil_of_no_hits relevant retrieved_ranked 1 0 hnone)]

/-- C8 witness: the theorem applied to the ranked list `[1, 3, 2]` and
relevant set `{1, 2}`. -/
theorem average_precision_spec_witness :
    average_precision [1, 3, 2] ({1, 2} : Finset ℤ) =
      (if ({1, 2} : Finset ℤ) = ∅ then 0
       else (spec_precision_at_hits [1, 3, 2] ({1, 2} : Finset ℤ)).sum /
         ((({1, 2} : Finset ℤ).card : ℚ)))
    ∧ (({1, 2} : Finset ℤ) = ∅ → average_precision [1, 3, 2] {1, 2} = 0)
    ∧ ((∀ d ∈ ([1, 3, 2] : List ℤ), d ∉ ({1, 2} : Finset ℤ)) →
        average_precision [1, 3, 2] {1, 2} = 0) :=
  average_precision_spec [1, 3, 2] {1, 2}

/-- C4: on an index with `total_docs > 0` (and dict-unique term keys),
`prune_terms` removes exactly the terms with document frequency below
`min_df` or with `df / total_docs` above `max_df_ratio`, returns the
number of removed terms, and afterwards every removed term has document
frequency `0` while every other term keeps its postings and document
frequency. -/
theorem prune_terms_spec (s : InvertedIndex) (min_df : ℕ) (max_df_ratio : ℚ)
    (hpos : 0 < s.total_docs) (hnd : (s.index.map Prod.fst).Nodup) :
    (prune_terms s min_df max_df_ratio).1 =
        ((termSet s).filter (shouldPrune s min_df max_df_ratio)).card
    ∧ (∀ t : String, shouldPrune s min_df max_df_ratio t →
        get_document_frequency (prune_terms s min_df max_df_ratio).2 t = 0)
    ∧ (∀ t : String, ¬ shouldPrune s min_df max_df_ratio t →
        get_postings (prune_terms s min_df max_df_ratio).2 t =
            get_postings s t
        ∧ get_document_frequency (prune_terms s min_df max_df_ratio).2 t =
            get_document_frequency s t) := by
  have hiff : ∀ t, (pruneFlag s.total_docs min_df max_df_ratio
      (get_document_frequency s t) = true) ↔
      shouldPrune s min_df max_df_ratio t := by
    intro t
    simp [pruneFlag, shouldPrune, hpos]
  have hdf : ∀ p ∈ s.index, get_document_frequency s p.1 = p.2.length := by
    intro p hp
    unfold get_document_frequency get_postings
    rw [dictGet?_of_mem_nodup hnd hp]
    rfl
  refine ⟨?_, ?_, ?_⟩
  · show (s.index.filter _).length = _
    have h1 : ((termSet s).filter (shouldPrune s min_df max_df_ratio)).card =
        ((s.index.map Prod.fst).filter
          (fun t => decide (shouldPrune s min_df max_df_ratio t))).length := by
      rw [← List.toFinset_card_of_nodup (hnd.filter _), List.toFinset_filter]
      congr 1
      apply Finset.filter_congr
      intro x _
      simp
    rw [h1, ← List.countP_eq_length_filter, ← List.countP_eq_length_filter,
      List.countP_map]
    apply List.countP_congr
    intro p hp
    show (pruneFlag s.total_docs min_df max_df_ratio p.2.length = true) ↔
      (decide (shouldPrune s min_df max_df_ratio p.1) = true)
    rw [← hdf p hp]
    simp only [decide_eq_true_eq]
    exact hiff p.1
  · intro t ht
    unfold get_document_frequency
    rw [get_postings_prune hnd t, if_pos ((hiff t).mpr ht)]
    rfl
  · intro t ht
    have hpost : get_postings (prune_terms s min_df max_df_ratio).2 t =
        get_postings s t := by
      rw [get_postings_prune hnd t,
        if_neg (fun hf => ht ((hiff t).mp hf))]
    exact ⟨hpost, by unfold get_document_frequency; rw [hpost]⟩

/-- C4 witness: the theorem applied to the concrete index `exIdx`
(`total_docs = 2 > 0`) with `min_df = 2` and `max_df_ratio = 1`. -/
theorem prune_terms_spec_witness :
    0 < exIdx.total_docs ∧ (exIdx.index.map Prod.fst).Nodup ∧
      ((prune_terms exIdx 2 1).1 =
          ((termSet exIdx).filter (shouldPrune exIdx 2 1)).card
      ∧ (∀ t : String, shouldPrune exIdx 2 1 t →
          get_document_frequency (prune_terms exIdx 2 1).2 t = 0)
      ∧ (∀ t : String, ¬ shouldPrune exIdx 2 1 t →
          get_postings (prune_terms exIdx 2 1).2 t = get_postings exIdx t
          ∧ get_document_frequency (prune_terms exIdx 2 1).2 t =
              get_document_frequency exIdx t)) :=
  ⟨by decide, by decide, prune_terms_spec exIdx 2 1 (by decide) (by decide)⟩

/-- C7: cosine similarity is symmetric and lies in `[0, 1]` for vectors
with non-negative weights; it is `0` whenever the two vectors share no
common term or either vector has zero Euclidean norm — in particular,
similarity with the empty (zero) vector is `0`. -/
theorem cosine_similarity_props (a b : List (String × ℝ))
    (ha : EntriesNonneg a) (hb : EntriesNonneg b) :
    cosine_similarity a b = cosine_similarity b a
    ∧ 0 ≤ cosine_similarity a b
    ∧ cosine_similarity a b ≤ 1
    ∧ (vecKeys a ∩ vecKeys b = ∅ → cosine_similarity a b = 0)
    ∧ (Real.sqrt (sumSquares a) = 0 ∨ Real.sqrt (sumSquares b) = 0 →
        cosine_similarity a b = 0)
    ∧ cosine_similarity a [] = 0 := by
  have hsym : ∀ u v : List (String × ℝ),
      cosine_similarity u v = cosine_similarity v u := by
    intro u v
    have hcc : vecKeys v ∩ vecKeys u = vecKeys u ∩ vecKeys v :=
      Finset.inter_comm _ _
    rw [cosine_similarity_def u v, cosine_similarity_def v u, hcc]
    by_cases hc : vecKeys u ∩ vecKeys v = ∅
    · rw [if_pos hc, if_pos hc]
    · rw [if_neg hc, if_neg hc]
      by_cases hm : Real.sqrt (sumSquares u) = 0 ∨ Real.sqrt (sumSquares v) = 0
      · rw [if_pos hm, if_pos (Or.symm hm)]
      · rw [if_neg hm, if_neg (fun hx => hm (Or.symm hx))]
        congr 1
        · apply Finset.sum_congr rfl
          intro t _
          ring
        · ring
  refine ⟨hsym a b, ?_, ?_, ?_, ?_, ?_⟩
  · rw [cosine_similarity_def]
    split
    · exact le_refl 0
    · split
      · exact le_refl 0
      · exact div_nonneg (dot_nonneg ha hb)
          (mul_nonneg (Real.sqrt_nonneg _) (Real.sqrt_nonneg _))
  · rw [cosine_similarity_def]
    split
    · norm_num
    · split
      · norm_num
      · rename_i hm
        push_neg at hm
        have hm1 : 0 < Real.sqrt (sumSquares a) :=
          lt_of_le_of_ne (Real.sqrt_nonneg _) (Ne.symm hm.1)
        have hm2 : 0 < Real.sqrt (sumSquares b) :=
          lt_of_le_of_ne (Real.sqrt_nonneg _) (Ne.symm hm.2)
        rw [div_le_one (mul_pos hm1 hm2)]
        exact dot_le_sqrt_mul_sqrt a b
  · intro hc
    rw [cosine_similarity_def, if_pos hc]
  · intro hm
    rw [cosine_similarity_def]
    by_cases hc2 : vecKeys a ∩ vecKeys b = ∅
    · rw [if_pos hc2]
    · rw [if_neg hc2, if_pos hm]
  · rw [cosine_similarity_def, if_pos (by simp [vecKeys])]

/-- C7 witness: the theorem applied to the concrete non-negative
vectors `[("x", 1)]` and `[("y", 2)]`. -/
theorem cosine_similarity_props_witness :
    EntriesNonneg [("x", (1 : ℝ))] ∧ EntriesNonneg [("y", (2 : ℝ))] ∧
      (cosine_similarity [("x", (1 : ℝ))] [("y", (2 : ℝ))] =
          cosine_similarity [("y", (2 : ℝ))] [("x", (1 : ℝ))]
      ∧ 0 ≤ cosine_similarity [("x", (1 : ℝ))] [("y", (2 : ℝ))]
      ∧ cosine_similarity [("x", (1 : ℝ))] [("y", (2 : ℝ))] ≤ 1
      ∧ (vecKeys [("x", (1 : ℝ))] ∩ vecKeys [("y", (2 : ℝ))] = ∅ →
          cosine_similarity [("x", (1 : ℝ))] [("y", (2 : ℝ))] = 0)
      ∧ (Real.sqrt (sumSquares [("x", (1 : ℝ))]) = 0 ∨
          Real.sqrt (sumSquares [("y", (2 : ℝ))]) = 0 →
          cosine_similarity [("x", (1 : ℝ))] [("y", (2 : ℝ))] = 0)
      ∧ cosine_similarity [("x", (1 : ℝ))] [] = 0) := by
  have ha : EntriesNonneg [("x", (1 : ℝ))] := by
    intro p hp
    simp only [List.mem_singleton] at hp
    rw [hp]
    norm_num
  have hb : EntriesNonneg [("y", (2 : ℝ))] := by
    intro p hp
    simp only [List.mem_singleton] at hp
    rw [hp]
    norm_num
  exact ⟨ha, hb, cosine_similarity_props _ _ ha hb⟩

/-- C9: over every index reachable by `add_document` and `prune_terms`
operations, no document frequency exceeds the total document count;
`calculate_idf` on a fresh cache is non-negative, and zero exactly when
the term's document frequency is `0` or equals the total document
count; every document-vector entry is strictly positive and every
query-vector entry (fresh calculator) is non-negative. -/
theorem weights_nonneg (ops : List Op) (t : String) (cache : IdfCache)
    (d : ℤ) (terms : List String) (qts : List String) :
    get_document_frequency (applyOps ops) t ≤ (applyOps ops).total_docs
    ∧ 0 ≤ (calculate_idf (applyOps ops) [] t).1
    ∧ ((calculate_idf (applyOps ops) [] t).1 = 0 ↔
        (get_document_frequency (applyOps ops) t = 0 ∨
          get_document_frequency (applyOps ops) t = (applyOps ops).total_docs))
    ∧ EntriesPos (calculate_document_vector (applyOps ops) cache d terms).1
    ∧ EntriesNonneg (calculate_query_vector (applyOps ops) [] qts).1 := by
  have hinv := inv_applyOps ops
  have hnilc : CacheConsistent (applyOps ops) [] :=
    fun p hp => absurd hp (List.not_mem_nil p)
  have hfresh : (calculate_idf (applyOps ops) [] t).1 =
      uncached_idf (applyOps ops) t :=
    (calculate_idf_consistent hnilc t).1
  refine ⟨hinv.2 t, ?_, ?_, entries_pos_calculate_document_vector _ _ _ _, ?_⟩
  · rw [hfresh]
    exact uncached_idf_nonneg hinv t
  · rw [hfresh]
    exact uncached_idf_eq_zero_iff hinv t
  · rw [calculate_query_vector_eq hnilc qts]
    intro p hp
    rcases List.mem_map.mp hp with ⟨u, _, rfl⟩
    exact mul_nonneg (calculate_tf_normalized_nonneg _ _)
      (uncached_idf_nonneg hinv u)

/-- C9 witness: the theorem applied to the one-document build
`add_document 1 ["a"]` with concrete term, cache and query. -/
theorem weights_nonneg_witness :
    get_document_frequency (applyOps [Op.add 1 ["a"]]) "a" ≤
        (applyOps [Op.add 1 ["a"]]).total_docs
    ∧ 0 ≤ (calculate_idf (applyOps [Op.add 1 ["a"]]) [] "a").1
    ∧ ((calculate_idf (applyOps [Op.add 1 ["a"]]) [] "a").1 = 0 ↔
        (get_document_frequency (applyOps [Op.add 1 ["a"]]) "a" = 0 ∨
          get_document_frequency (applyOps [Op.add 1 ["a"]]) "a" =
            (applyOps [Op.add 1 ["a"]]).total_docs))
    ∧ EntriesPos (calculate_document_vector (applyOps [Op.add 1 ["a"]]) [] 1
        ["a"]).1
    ∧ EntriesNonneg (calculate_query_vector (applyOps [Op.add 1 ["a"]]) []
        ["a"]).1 :=
  weights_nonneg [Op.add 1 ["a"]] "a" [] 1 ["a"] ["a"]

/-- C3 counterexample: against the index holding only document 1 with
token "b", the query vector of the single-term query `["a"]` (document
frequency 0, hence idf 0) is exactly `[("a", 0)]` — the zero-weight
query term is present, not omitted. -/
theorem query_vector_keeps_zero_weight_term :
    (calculate_query_vector (add_document InvertedIndex.empty 1 ["b"]) []
      ["a"]).1 = [("a", 0)] := by
  rw [calculate_query_vector_eq (fun p hp => absurd hp (List.not_mem_nil p))
    ["a"]]
  have hd : distinctFirst ["a"] = ["a"] := rfl
  rw [hd]
  simp only [List.map_cons, List.map_nil]
  have hdf : get_document_frequency (add_document InvertedIndex.empty 1 ["b"])
      "a" = 0 := by decide
  have hidf : uncached_idf (add_document InvertedIndex.empty 1 ["b"]) "a" = 0 := by
    unfold uncached_idf
    rw [if_pos hdf]
  rw [hidf, mul_zero]

/-- C3 (amended): document vectors omit zero weights — no entry of any
`calculate_document_vector` result is 0 — while `calculate_query_vector`
(with a cache consistent with the index, e.g. a fresh calculator) maps
every distinct query term to `tf * idf`, keeping zero weights; in
particular a query term with document frequency 0 appears mapped to 0. -/
theorem zero_weights_doc_omitted_query_kept (s : InvertedIndex)
    (cache : IdfCache) (d : ℤ) (terms : List String)
    (cq : IdfCache) (qts : List String) (hcq : CacheConsistent s cq) :
    (∀ p ∈ (calculate_document_vector s cache d terms).1, p.2 ≠ 0)
    ∧ (calculate_query_vector s cq qts).1 =
        (distinctFirst qts).map (fun t =>
          (t, calculate_tf (qts.count t) qts.length "normalized" *
            uncached_idf s t))
    ∧ (∀ t ∈ qts, get_document_frequency s t = 0 →
        (t, (0 : ℝ)) ∈ (calculate_query_vector s cq qts).1) := by
  refine ⟨?_, calculate_query_vector_eq hcq qts, ?_⟩
  · intro p hp
    exact ne_of_gt (entries_pos_calculate_document_vector s cache d terms p hp)
  · intro t ht hdf
    rw [calculate_query_vector_eq hcq qts]
    have hmem : (t, calculate_tf (qts.count t) qts.length "normalized" *
        uncached_idf s t) ∈ (distinctFirst qts).map (fun t =>
          (t, calculate_tf (qts.count t) qts.length "normalized" *
            uncached_idf s t)) :=
      List.mem_map_of_mem _ (mem_distinctFirst.mpr ht)
    have hidf : uncached_idf s t = 0 := by
      unfold uncached_idf
      rw [if_pos hdf]
    rwa [hidf, mul_zero] at hmem

/-- C3 witness: the amended theorem applied to the one-document index
`add_document 1 ["b"]`, a fresh (empty, hence consistent) cache, and
the query `["a"]`. -/
theorem zero_weights_doc_omitted_query_kept_witness :
    CacheConsistent (add_document InvertedIndex.empty 1 ["b"]) [] ∧
      ((∀ p ∈ (calculate_document_vector (add_document InvertedIndex.empty 1
          ["b"]) [] 1 ["b"]).1, p.2 ≠ 0)
      ∧ (calculate_query_vector (add_document InvertedIndex.empty 1 ["b"]) []
          ["a"]).1 =
          (distinctFirst ["a"]).map (fun t =>
            (t, calculate_tf (["a"].count t) (["a"] : List String).length
              "normalized" *
              uncached_idf (add_document InvertedIndex.empty 1 ["b"]) t))
      ∧ (∀ t ∈ (["a"] : List String),
          get_document_frequency (add_document InvertedIndex.empty 1 ["b"]) t = 0 →
          (t, (0 : ℝ)) ∈ (calculate_query_vector
            (add_document InvertedIndex.empty 1 ["b"]) [] ["a"]).1)) := by
  have hc : CacheConsistent (add_document InvertedIndex.empty 1 ["b"]) [] :=
    fun p hp => absurd hp (List.not_mem_nil p)
  exact ⟨hc, zero_weights_doc_omitted_query_kept _ [] 1 ["b"] [] ["a"] hc⟩

/-- C1 (code bug): the idf cache is never invalidated by index
mutations.  Cache idf("a") on a one-document index, then add a second
document: `calculate_idf` still returns the stale cached value
log10(1/1) = 0, which differs from the idf recomputed from the current
document-frequency counts, log10(2/1) > 0. -/
theorem idf_cache_stale_after_add :
    (calculate_idf
        (add_document (add_document InvertedIndex.empty 1 ["a"]) 2 ["b"])
        (calculate_idf (add_document InvertedIndex.empty 1 ["a"]) [] "a").2
        "a").1
      ≠ uncached_idf
          (add_document (add_document InvertedIndex.empty 1 ["a"]) 2 ["b"])
          "a" := by
  have hc1 : (calculate_idf (add_document InvertedIndex.empty 1 ["a"]) []
      "a").2 = [("a", uncached_idf (add_document InvertedIndex.empty 1 ["a"])
        "a")] := by
    rw [calculate_idf_miss (by rfl : dictGet? ([] : IdfCache) "a" = none)]
    rfl
  have hhit : dictGet?
      [("a", uncached_idf (add_document InvertedIndex.empty 1 ["a"]) "a")] "a"
      = some (uncached_idf (add_document InvertedIndex.empty 1 ["a"]) "a") := by
    simp [dictGet?]
  have hlhs : (calculate_idf
      (add_document (add_document InvertedIndex.empty 1 ["a"]) 2 ["b"])
      (calculate_idf (add_document InvertedIndex.empty 1 ["a"]) [] "a").2
      "a").1 = uncached_idf (add_document InvertedIndex.empty 1 ["a"]) "a" := by
    rw [hc1, calculate_idf_hit hhit]
  have hdf1 : get_document_frequency (add_document InvertedIndex.empty 1 ["a"])
      "a" = 1 := by decide
  have htot1 : (add_document InvertedIndex.empty 1 ["a"]).total_docs = 1 := rfl
  have hzero : uncached_idf (add_document InvertedIndex.empty 1 ["a"]) "a" = 0 := by
    unfold uncached_idf
    rw [if_neg (by simp [hdf1]), hdf1, htot1]
    norm_num
  have hdf2 : get_document_frequency
      (add_document (add_document InvertedIndex.empty 1 ["a"]) 2 ["b"]) "a" = 1 := by
    decide
  have htot2 : (add_document (add_document InvertedIndex.empty 1 ["a"]) 2
      ["b"]).total_docs = 2 := rfl
  have hpos : 0 < uncached_idf
      (add_document (add_document InvertedIndex.empty 1 ["a"]) 2 ["b"]) "a" := by
    unfold uncached_idf
    rw [if_neg (by simp [hdf2]), hdf2, htot2]
    apply Real.logb_pos (by norm_num)
    norm_num
  intro heq
  rw [hlhs, hzero] at heq
  exact (ne_of_gt hpos) heq.symm

/-- C2 (code bug): `ndcg_at_k` discounts position `i > 1` by the linear
factor `i * 0.693147` instead of the spec's required `log2(i + 1)` (the
code's own comment claims the former approximates the latter).  At the
ranked list `[2, 1]` with relevance scores `{1 ↦ 1, 2 ↦ 0}` and
`k = 2`, the code returns `1000000 / 1386294 ≈ 0.7213` while the
`log2(i + 1)` formula yields `1 / log2 3 ≈ 0.6309`. -/
theorem ndcg_discount_deviates_from_log2 :
    ((ndcg_at_k [2, 1] [(1, 1), (2, 0)] 2 : ℚ) : ℝ) ≠
      ndcg_at_k_spec [2, 1] [(1, 1), (2, 0)] 2 := by
  have hrel2 : relevanceOf [(1, 1), (2, 0)] 2 = 0 := by
    norm_num [relevanceOf, dictGet?]
  have hrel1 : relevanceOf [(1, 1), (2, 0)] 1 = 1 := by
    norm_num [relevanceOf, dictGet?]
  have hsort : sortRelDesc [(1, 1), (2, 0)] = [(1, 1), (2, 0)] := by
    norm_num [sortRelDesc, insertRel]
  have hmapranked : (([2, 1] : List ℤ).take 2).map (relevanceOf [(1, 1), (2, 0)]) =
      [0, 1] := by
    rw [show (([2, 1] : List ℤ).take 2) = [2, 1] from rfl, List.map_cons,
      List.map_cons, List.map_nil, hrel2, hrel1]
  have hmapideal : ((sortRelDesc [(1, 1), (2, 0)]).take 2).map Prod.snd =
      [(1 : ℚ), 0] := by
    rw [hsort]
    rfl
  have hcode : ndcg_at_k [2, 1] [(1, 1), (2, 0)] 2 = 1000000 / 1386294 := by
    simp only [ndcg_at_k, hmapranked, hmapideal]
    norm_num [dcgSum]
  have hlogb_pos : 0 < Real.logb 2 3 :=
    Real.logb_pos (by norm_num) (by norm_num)
  have hdcg : dcgSumSpec [(0 : ℚ), 1] 1 = (Real.logb 2 3)⁻¹ := by
    norm_num [dcgSumSpec]
  have hidcg : dcgSumSpec [(1 : ℚ), 0] 1 = 1 := by
    norm_num [dcgSumSpec]
  have hspec : ndcg_at_k_spec [2, 1] [(1, 1), (2, 0)] 2 = (Real.logb 2 3)⁻¹ := by
    simp only [ndcg_at_k_spec, hmapranked, hmapideal, hdcg, hidcg]
    norm_num
  have hgt : (3 : ℝ) / 2 < Real.logb 2 3 := by
    rw [Real.logb, lt_div_iff₀ (Real.log_pos (by norm_num))]
    have h89 : Real.log 8 < Real.log 9 :=
      Real.log_lt_log (by norm_num) (by norm_num)
    have h8 : Real.log 8 = 3 * Real.log 2 := by
      rw [show (8 : ℝ) = 2 ^ 3 by norm_num, Real.log_pow]
      norm_num
    have h9 : Real.log 9 = 2 * Real.log 3 := by
      rw [show (9 : ℝ) = 3 ^ 2 by norm_num, Real.log_pow]
      norm_num
    linarith
  have hinvlt : (Real.logb 2 3)⁻¹ < 2 / 3 := by
    have h1 : (Real.logb 2 3)⁻¹ < ((3 : ℝ) / 2)⁻¹ := by
      apply inv_strictAnti₀ (by norm_num) hgt
    calc (Real.logb 2 3)⁻¹ < ((3 : ℝ) / 2)⁻¹ := h1
      _ = 2 / 3 := by norm_num
  rw [hcode, hspec]
  intro heq
  have hlt : (Real.logb 2 3)⁻¹ < (((1000000 : ℚ) / 1386294 : ℚ) : ℝ) := by
    refine lt_trans hinvlt ?_
    rw [show (((1000000 : ℚ) / 1386294 : ℚ) : ℝ) = (1000000 : ℝ) / 1386294 by
      push_cast; ring]
    norm_num
  rw [← heq] at hlt
  exact lt_irrefl _ hlt

/-- C5: every pair returned by `vector_space_search` names a document
holding a posting for at least one query term, scored by the cosine
similarity of the query vector with the document vector restricted to
the query terms (computed against the post-query cache, which the
candidate loop leaves unchanged); every returned score is strictly
positive, the list is sorted by score non-increasing, and its length is
at most `top_k`. -/
theorem vector_space_search_spec (s : InvertedIndex) (cache : IdfCache)
    (query_terms : List String) (top_k : ℕ) :
    (vector_space_search s cache query_terms top_k).length ≤ top_k
    ∧ SortedByScoreDesc (vector_space_search s cache query_terms top_k)
    ∧ ∀ p ∈ vector_space_search s cache query_terms top_k,
        (∃ t ∈ query_terms, p.1 ∈ docIdsOf s t)
        ∧ 0 < p.2
        ∧ p.2 = cosine_similarity
            (calculate_query_vector s cache query_terms).1
            (calculate_document_vector s
              (calculate_query_vector s cache query_terms).2 p.1
              query_terms).1 := by
  by_cases hq : (calculate_query_vector s cache query_terms).1.isEmpty
  · have hres : vector_space_search s cache query_terms top_k = [] := by
      simp only [vector_space_search]
      rw [if_pos hq]
    rw [hres]
    exact ⟨by simp, List.Pairwise.nil, by simp⟩
  · have hstable : ∀ d : ℤ,
        (calculate_document_vector s
          (calculate_query_vector s cache query_terms).2 d query_terms).2 =
        (calculate_query_vector s cache query_terms).2 :=
      fun d => calculate_document_vector_cache_stable d
        (fun t ht => mem_keys_query_cache s cache query_terms ht)
    have hres : vector_space_search s cache query_terms top_k =
        (sortByScore
          (((candidateDocs s query_terms).sort (· ≤ ·)).filterMap
            (fun d =>
              let sim := cosine_similarity
                (calculate_query_vector s cache query_terms).1
                (calculate_document_vector s
                  (calculate_query_vector s cache query_terms).2 d
                  query_terms).1
              if 0 < sim then some (d, sim) else none))).take top_k := by
      simp only [vector_space_search]
      rw [if_neg hq,
        vss_fold_eq s (calculate_query_vector s cache query_terms).1
          query_terms (calculate_query_vector s cache query_terms).2 hstable
          ((candidateDocs s query_terms).sort (· ≤ ·)) []]
      simp
    rw [hres]
    refine ⟨?_, ?_, ?_⟩
    · exact List.length_take_le _ _
    · exact List.Pairwise.sublist (List.take_sublist _ _) (sorted_sortByScore _)
    · intro p hp
      have hp2 := mem_sortByScore.mp (List.mem_of_mem_take hp)
      rcases List.mem_filterMap.mp hp2 with ⟨d, hd, hfd⟩
      simp only at hfd
      by_cases hpos : 0 < cosine_similarity
          (calculate_query_vector s cache query_terms).1
          (calculate_document_vector s
            (calculate_query_vector s cache query_terms).2 d query_terms).1
      · rw [if_pos hpos] at hfd
        have hpd := Option.some.inj hfd
        rw [← hpd]
        refine ⟨?_, hpos, rfl⟩
        have hmem : d ∈ candidateDocs s query_terms :=
          (Finset.mem_sort (α := ℤ) (· ≤ ·)).mp hd
        have := (mem_foldl_union s d query_terms ∅).mp hmem
        rcases this with h | h
        · simp at h
        · exact h
      · rw [if_neg hpos] at hfd
        cases hfd

/-- C5 witness: the theorem applied to the empty index, an empty cache,
the query `["a"]` and `top_k = 3`. -/
theorem vector_space_search_spec_witness :
    (vector_space_search InvertedIndex.empty [] ["a"] 3).length ≤ 3
    ∧ SortedByScoreDesc (vector_space_search InvertedIndex.empty [] ["a"] 3)
    ∧ ∀ p ∈ vector_space_search InvertedIndex.empty [] ["a"] 3,
        (∃ t ∈ (["a"] : List String), p.1 ∈ docIdsOf InvertedIndex.empty t)
        ∧ 0 < p.2
        ∧ p.2 = cosine_similarity
            (calculate_query_vector InvertedIndex.empty [] ["a"]).1
            (calculate_document_vector InvertedIndex.empty
              (calculate_query_vector InvertedIndex.empty [] ["a"]).2 p.1
              ["a"]).1 :=
  vector_space_search_spec InvertedIndex.empty [] ["a"] 3

end IRGW
